import Mathlib

/-!
Verification of the orchestration core of `scripts/do-partition.py`:
a three-phase pipeline (parallel partition-subset computation with on-disk
checkpoints, sequential merge, per-input annotation) driven by an external
graph engine.  The Python sources are shallowly embedded below: pure string
and list manipulations become Lean functions, the filesystem becomes an
explicit list of paths, and the thread pool becomes a small-step transition
system over a system state with an event trace.
-/

set_option maxHeartbeats 1600000

namespace DoPartition

/-! Section: Decimal rendering of naturals

`'%d' % index` in Python renders the subset index in decimal; in the
embedding this is `Nat.repr`.  We prove `Nat.repr` injective via a
reference digit list and an evaluation function. -/

/-- Decimal digit characters of `n`, most significant first. -/
def decDigits (n : Nat) : List Char :=
  if _h : n < 10 then [Nat.digitChar n]
  else decDigits (n / 10) ++ [Nat.digitChar (n % 10)]
termination_by n
decreasing_by
  exact Nat.div_lt_self (by omega) (by decide)

theorem decDigits_small {n : Nat} (h : n < 10) : decDigits n = [Nat.digitChar n] := by
  rw [decDigits]
  simp [h]

theorem decDigits_large {n : Nat} (h : ¬ n < 10) :
    decDigits n = decDigits (n / 10) ++ [Nat.digitChar (n % 10)] := by
  conv_lhs => rw [decDigits]
  simp [h]

theorem toDigitsCore_eq_decDigits :
    ∀ (f n : Nat) (ds : List Char), n < f →
      Nat.toDigitsCore 10 f n ds = decDigits n ++ ds := by
  intro f
  induction f with
  | zero => intro n ds h; omega
  | succ f ih =>
    intro n ds h
    have hunf : Nat.toDigitsCore 10 (f + 1) n ds =
        (if n / 10 = 0 then Nat.digitChar (n % 10) :: ds
         else Nat.toDigitsCore 10 f (n / 10) (Nat.digitChar (n % 10) :: ds)) := by
      conv_lhs => rw [Nat.toDigitsCore]
    by_cases hz : n / 10 = 0
    · have hn : n < 10 := by omega
      rw [hunf, if_pos hz, decDigits_small hn, Nat.mod_eq_of_lt hn]
      rfl
    · have hn10 : ¬ n < 10 := by omega
      have hlt : n / 10 < f := by omega
      rw [hunf, if_neg hz, ih (n / 10) (Nat.digitChar (n % 10) :: ds) hlt,
        decDigits_large hn10, List.append_assoc]
      rfl

/-- Evaluate a decimal digit string back to a natural number. -/
def val10 (l : List Char) : Nat :=
  l.foldl (fun acc c => 10 * acc + (c.toNat - 48)) 0

theorem val10_aux (l : List Char) (a : Nat) :
    l.foldl (fun acc c => 10 * acc + (c.toNat - 48)) a =
      a * 10 ^ l.length + val10 l := by
  induction l generalizing a with
  | nil => simp [val10]
  | cons c cs ih =>
    simp only [List.foldl_cons, List.length_cons, val10]
    rw [ih, ih (10 * 0 + (c.toNat - 48))]
    ring

theorem val10_append_singleton (l : List Char) (c : Char) :
    val10 (l ++ [c]) = 10 * val10 l + (c.toNat - 48) := by
  simp only [val10, List.foldl_append, List.foldl_cons, List.foldl_nil]

theorem digitChar_toNat {m : Nat} (h : m < 10) : (Nat.digitChar m).toNat - 48 = m := by
  interval_cases m <;> rfl

theorem val10_decDigits (n : Nat) : val10 (decDigits n) = n := by
  induction n using Nat.strong_induction_on with
  | _ n ih =>
    by_cases h : n < 10
    · rw [decDigits_small h]
      show 10 * 0 + ((Nat.digitChar n).toNat - 48) = n
      rw [digitChar_toNat h]
      omega
    · have hdiv : n / 10 < n := Nat.div_lt_self (by omega) (by decide)
      rw [decDigits_large h, val10_append_singleton, ih (n / 10) hdiv,
        digitChar_toNat (Nat.mod_lt n (by decide))]
      omega

theorem repr_data_eq (n : Nat) : (Nat.repr n).data = decDigits n := by
  show (Nat.toDigits 10 n).asString.data = decDigits n
  have h : Nat.toDigits 10 n = Nat.toDigitsCore 10 (n + 1) n [] := rfl
  rw [h, toDigitsCore_eq_decDigits (n + 1) n [] (Nat.lt_succ_self n), List.append_nil]
  rfl

theorem val10_repr (n : Nat) : val10 (Nat.repr n).data = n := by
  rw [repr_data_eq, val10_decDigits]

theorem repr_injective : Function.Injective Nat.repr := by
  intro a b h
  have := congrArg (fun s => val10 (String.data s)) h
  simpa [val10_repr] using this

/-! Section: Checkpoint paths and glob matching

From `worker` (line 55): `outfile = basename + '.subset.%d.pmap' % (index,)`
and from `main` (line 207): `pmap_files = glob.glob(args.graphbase + '.subset.*.pmap')`. -/

/-- Checkpoint path for one subset index, as built by `worker`. -/
def outfile (basename : String) (index : Nat) : String :=
  basename ++ ".subset." ++ Nat.repr index ++ ".pmap"

theorem outfile_inj (b : String) {i j : Nat} (h : outfile b i = outfile b j) : i = j := by
  apply repr_injective
  apply String.ext
  have hd := congrArg String.data h
  simp only [outfile, String.data_append, List.append_assoc] at hd
  have h1 := List.append_cancel_left hd
  have h2 := List.append_cancel_left h1
  exact List.append_cancel_right h2

/-- Whether path `p` matches the glob pattern `basename + '.subset.*.pmap'`:
it decomposes as the literal pattern head, an arbitrary middle, and the
literal `.pmap` tail. -/
def matchesPmap (basename : String) (p : String) : Bool :=
  let pre := (basename ++ ".subset.").data
  let suf := (".pmap").data
  let rest := p.data.drop pre.length
  decide (p.data.take pre.length = pre) ∧
    decide (rest.drop (rest.length - suf.length) = suf)

theorem matchesPmap_outfile (b : String) (i : Nat) :
    matchesPmap b (outfile b i) = true := by
  have hdata : (outfile b i).data =
      (b ++ ".subset.").data ++ ((Nat.repr i).data ++ (".pmap").data) := by
    simp [outfile, String.data_append]
  simp only [matchesPmap, hdata, Bool.decide_and, Bool.and_eq_true, decide_eq_true_eq]
  constructor
  · rw [List.take_left]
  · rw [List.drop_left]
    have hlen : ((Nat.repr i).data ++ (".pmap").data).length =
        (Nat.repr i).data.length + (".pmap").data.length := List.length_append _ _
    rw [hlen, Nat.add_sub_cancel, List.drop_left]

/-- The glob enumeration of checkpoint files from `main` (line 207). -/
def globPmaps (basename : String) (fs : List String) : List String :=
  fs.filter (matchesPmap basename)

/-! Section: The task partitioner

From `main` (lines 160-172): the engine returns boundary offsets `divvy`;
the code records `n_subsets = len(divvy)`, appends a trailing `0`, and
enqueues one `(index, start, stop)` work item per subset. -/

/-- One work item `(index, start, stop)` as put on the worker queue. -/
structure Item where
  index : Nat
  start : Nat
  stop : Nat
deriving DecidableEq, Repr, Inhabited

/-- Work items built from the engine boundary offsets, following
`divvy.append(0)` and the loop over `range(0, n_subsets)`. -/
def workItems (divvy : List Nat) : List Item :=
  let d := divvy ++ [0]
  (List.range divvy.length).map
    (fun i => { index := i, start := d.getD i 0, stop := d.getD (i + 1) 0 })

/-- Modelled from the spec: the engine call `divide_tags_into_subsets`
(`divide_index_domain` in the spec's engine contract) is not part of the
sources under `src/`.  Per the spec (section 6 and the concrete scenario in
section 8 item 5: domain size `T = 1000`, target size `S = 300` gives
boundaries `[0,300),[300,600),[600,900),[900,1000)`), it returns the
ordered start offsets `0, S, 2*S, ...` of consecutive target-size subsets
covering `[0, T)`. -/
def specDivvy (T S : Nat) : List Nat :=
  (List.range ((T + S - 1) / S)).map (fun i => i * S)

/-- The engine treats a stop offset of `0` as the end of the index domain;
this interprets a stored stop offset against domain size `T`. -/
def interpStop (T stop : Nat) : Nat :=
  if stop = 0 then T else stop

/-- Membership of tag `x` in the (sentinel-interpreted) span of an item. -/
def coversTag (T : Nat) (it : Item) (x : Nat) : Prop :=
  it.start ≤ x ∧ x < interpStop T it.stop

/-! Section: The worker loop, sequentialized

From `worker` (lines 47-70): pop an item, derive the checkpoint path,
skip the item when the path exists, otherwise compute the subset partition
and save it (which creates the checkpoint file).  `processItems` folds the
whole queue through one worker; it returns the indices actually computed
and the final filesystem. -/

def processItems (basename : String) : List Item → List String → List Nat × List String
  | [], fs => ([], fs)
  | it :: rest, fs =>
    let out := outfile basename it.index
    if out ∈ fs then processItems basename rest fs
    else
      let r := processItems basename rest (fs ++ [out])
      (it.index :: r.1, r.2)

/-- Thread-count adjustment from `main` (lines 178-179):
`if n_subsets < args.threads: args.threads = n_subsets`. -/
def adjustThreads (threads nSubsets : Nat) : Nat :=
  if nSubsets < threads then nSubsets else threads

/-! Section: Merge, cleanup and annotation stages -/

inductive ExitErr where
  /-- `sys.exit(1)` from the collision-rate gate (line 143). -/
  | gateAbort
  /-- the uncaught `IndexError` raised by `pmap_files[0]` when the glob
  finds no checkpoint files (line 210); the process dies with a non-zero
  exit status before any merge happens. -/
  | mergeNoFiles
deriving DecidableEq, Repr

/-- Merge stage from `main` (lines 207-221): glob the checkpoint files,
fail when there are none, fold them all, then delete them unless
`--keep-subsets` was given.  Returns the list of folded files and the
filesystem afterwards. -/
def mergeStage (basename : String) (removeSubsets : Bool) (fs : List String) :
    Except ExitErr (List String × List String) :=
  let pmaps := globPmaps basename fs
  if pmaps = [] then Except.error ExitErr.mergeNoFiles
  else
    Except.ok (pmaps,
      if removeSubsets then fs.filter (fun p => decide (p ∉ pmaps)) else fs)

/-- `os.path.basename` for POSIX paths: the characters after the last
slash (line 227 uses it to name annotation outputs). -/
def osBasename (s : String) : String :=
  ((s.data.reverse.takeWhile (fun c => decide (c ≠ '/'))).reverse).asString

/-- Annotation stage from `main` (lines 225-231): each input file is
annotated into `os.path.basename(infile) + '.part'`, in processing order.
Each entry is the pair (output path, input file). -/
def annotateWrites (inputs : List String) : List (String × String) :=
  inputs.map (fun f => (osBasename f ++ ".part", f))

/-- Content finally present at output path `p` after the annotation
writes: the source input of the last write to `p`, if any. -/
def finalAt (writes : List (String × String)) (p : String) : Option String :=
  ((writes.filter (fun w => decide (w.1 = p))).getLast?).map Prod.snd

/-- Idempotent file creation: `open(path, 'w')` on a path-set filesystem. -/
def insertFile (p : String) (fs : List String) : List String :=
  if p ∈ fs then fs else fs ++ [p]

structure Config where
  graphbase : String
  inputFilenames : List String
  threads : Nat
  removeSubsets : Bool
  force : Bool

structure RunResult where
  err : Option ExitErr
  computed : List Nat
  merged : List String
  fs : List String
  annotated : List (String × String)
deriving DecidableEq, Repr

/-- Sequential model of `main` (lines 106-231), parameterized over the
engine-reported collision rate and boundary offsets and over the initial
filesystem.  The gate threshold `3 / 20` is the literal `0.15` of line
136.  Worker-pool draining is modelled sequentially here (the interleaved
model is `Step`/`Reach` below). -/
def run (cfg : Config) (fpRate : ℚ) (divvy : List Nat) (fs0 : List String) : RunResult :=
  if 3 / 20 < fpRate ∧ cfg.force = false then
    { err := some ExitErr.gateAbort, computed := [], merged := [], fs := fs0,
      annotated := [] }
  else
    let items := workItems divvy
    let fs1 := insertFile (cfg.graphbase ++ ".info") fs0
    let r := processItems cfg.graphbase items fs1
    match mergeStage cfg.graphbase cfg.removeSubsets r.2 with
    | Except.error e =>
        { err := some e, computed := r.1, merged := [], fs := r.2, annotated := [] }
    | Except.ok pr =>
        let writes := annotateWrites cfg.inputFilenames
        { err := none, computed := r.1, merged := pr.1,
          fs := writes.foldl (fun fs w => insertFile w.1 fs) pr.2,
          annotated := writes }

/-! Section: Interleaved model of the worker pool

From `main` (lines 166-216) and `worker` (lines 47-70): a shared FIFO
queue of items, a pool of worker threads each running the worker loop,
and a main thread that asserts the live-thread count (line 193), joins
every worker (lines 198-199) and then merges the globbed checkpoint
files (lines 207-216).  Any interleaving of thread steps is allowed. -/

/-- Local control state of one worker thread. -/
inductive WStatus where
  /-- at the top of the loop, about to poll the queue -/
  | idle
  /-- holding an item, about to test checkpoint existence -/
  | checking (it : Item)
  /-- existence test was negative; computing the subset partition -/
  | computing (it : Item)
  /-- returned after `Queue.Empty` -/
  | done
deriving DecidableEq, Repr

/-- Control state of the main thread after spawning the pool. -/
inductive MPhase where
  /-- at the `assert threading.active_count() == args.threads + 1` line -/
  | asserting
  /-- joining the workers -/
  | joining
  /-- merging the remaining globbed checkpoint files -/
  | merging (files : List String)
deriving DecidableEq, Repr

structure SysState where
  queue : List Item
  fs : List String
  workers : List WStatus
  mainPh : MPhase
deriving DecidableEq, Repr

/-- Observable events of one interleaved execution. -/
inductive Event where
  /-- worker `w` received item `it` from the queue -/
  | pop (w : Nat) (it : Item)
  /-- worker `w` skipped its item: the checkpoint file already exists -/
  | skip (w : Nat) (it : Item)
  /-- worker `w` started `do_subset_partition` for its item -/
  | compute (w : Nat) (it : Item)
  /-- worker `w` saved its subset result, creating checkpoint `path` -/
  | save (w : Nat) (it : Item) (path : String)
  /-- worker `w` polled an empty queue and terminated -/
  | exitW (w : Nat)
  /-- the main thread evaluated the active-count assertion -/
  | assertCheck (ok : Bool)
  /-- the main thread finished joining every worker -/
  | joinAll
  /-- the main thread merged checkpoint file `path` -/
  | mergeFile (path : String)
deriving DecidableEq, Repr

/-- Number of worker threads that have not terminated. -/
def liveCount (s : SysState) : Nat :=
  (s.workers.filter (fun st => decide (st ≠ WStatus.done))).length

/-- The condition of the assertion at line 193:
`threading.active_count() == args.threads + 1`, where the active count is
the main thread plus the live workers and `args.threads` is the number of
spawned workers. -/
def assertOk (s : SysState) : Bool :=
  decide (1 + liveCount s = s.workers.length + 1)

inductive Step (basename : String) : SysState → Event → SysState → Prop where
  | popItem (s : SysState) (w : Nat) (it : Item) (rest : List Item)
      (hw : s.workers[w]? = some WStatus.idle) (hq : s.queue = it :: rest) :
      Step basename s (Event.pop w it)
        { s with queue := rest, workers := s.workers.set w (WStatus.checking it) }
  | queueEmpty (s : SysState) (w : Nat)
      (hw : s.workers[w]? = some WStatus.idle) (hq : s.queue = []) :
      Step basename s (Event.exitW w)
        { s with workers := s.workers.set w WStatus.done }
  | skipExisting (s : SysState) (w : Nat) (it : Item)
      (hw : s.workers[w]? = some (WStatus.checking it))
      (hex : outfile basename it.index ∈ s.fs) :
      Step basename s (Event.skip w it)
        { s with workers := s.workers.set w WStatus.idle }
  | startCompute (s : SysState) (w : Nat) (it : Item)
      (hw : s.workers[w]? = some (WStatus.checking it))
      (hex : outfile basename it.index ∉ s.fs) :
      Step basename s (Event.compute w it)
        { s with workers := s.workers.set w (WStatus.computing it) }
  | saveSubset (s : SysState) (w : Nat) (it : Item)
      (hw : s.workers[w]? = some (WStatus.computing it)) :
      Step basename s (Event.save w it (outfile basename it.index))
        { s with fs := s.fs ++ [outfile basename it.index],
                 workers := s.workers.set w WStatus.idle }
  | assertStep (s : SysState) (hm : s.mainPh = MPhase.asserting) :
      Step basename s (Event.assertCheck (assertOk s))
        { s with mainPh := MPhase.joining }
  | joinStep (s : SysState) (hm : s.mainPh = MPhase.joining)
      (hall : ∀ st ∈ s.workers, st = WStatus.done) :
      Step basename s Event.joinAll
        { s with mainPh := MPhase.merging (globPmaps basename s.fs) }
  | mergeStep (s : SysState) (f : String) (rest : List String)
      (hm : s.mainPh = MPhase.merging (f :: rest)) :
      Step basename s (Event.mergeFile f) { s with mainPh := MPhase.merging rest }

/-- The state right after `main` spawned `k` workers over queue `items`
with filesystem `fs0`. -/
def mkInit (items : List Item) (k : Nat) (fs0 : List String) : SysState :=
  { queue := items, fs := fs0, workers := List.replicate k WStatus.idle,
    mainPh := MPhase.asserting }

/-- Reachability with the accumulated event trace (oldest first). -/
inductive Reach (basename : String) (init : SysState) : SysState → List Event → Prop where
  | refl : Reach basename init init []
  | step (s : SysState) (tr : List Event) (e : Event) (s' : SysState)
      (hr : Reach basename init s tr) (hs : Step basename s e s') :
      Reach basename init s' (tr ++ [e])

def Event.isWorkerEv : Event → Bool
  | Event.pop _ _ => true
  | Event.skip _ _ => true
  | Event.compute _ _ => true
  | Event.save _ _ _ => true
  | Event.exitW _ => true
  | _ => false

def Event.isMergeEv : Event → Bool
  | Event.mergeFile _ => true
  | _ => false

def MPhase.isMerging : MPhase → Bool
  | MPhase.merging _ => true
  | _ => false

def isPopIdx (i : Nat) : Event → Bool
  | Event.pop _ it => decide (it.index = i)
  | _ => false

def isFinishIdx (i : Nat) : Event → Bool
  | Event.skip _ it => decide (it.index = i)
  | Event.save _ it _ => decide (it.index = i)
  | _ => false

def isSaveIdx (i : Nat) : Event → Bool
  | Event.save _ it _ => decide (it.index = i)
  | _ => false

def isSavePath (p : String) : Event → Bool
  | Event.save _ _ q => decide (q = p)
  | _ => false

def holdsIdx (i : Nat) : WStatus → Bool
  | WStatus.checking it => decide (it.index = i)
  | WStatus.computing it => decide (it.index = i)
  | _ => false

/-- Number of deliveries of subset index `i` recorded in the trace. -/
def popIdxCount (tr : List Event) (i : Nat) : Nat :=
  tr.countP (isPopIdx i)

/-- Number of skip-or-save completions for subset index `i`. -/
def finishIdxCount (tr : List Event) (i : Nat) : Nat :=
  tr.countP (isFinishIdx i)

/-- Number of checkpoint writes for subset index `i`. -/
def saveIdxCount (tr : List Event) (i : Nat) : Nat :=
  tr.countP (isSaveIdx i)

/-- Number of checkpoint writes to path `p`. -/
def savePathCount (tr : List Event) (p : String) : Nat :=
  tr.countP (isSavePath p)

/-- Number of queued items with subset index `i`. -/
def queueIdxCount (q : List Item) (i : Nat) : Nat :=
  q.countP (fun it => decide (it.index = i))

/-- Number of workers currently holding an item with subset index `i`. -/
def holdIdxCount (ws : List WStatus) (i : Nat) : Nat :=
  ws.countP (holdsIdx i)

/-! Section: List bookkeeping helpers -/

theorem countP_set {α : Type} (p : α → Bool) :
    ∀ (l : List α) (n : Nat) (a b : α), l[n]? = some b →
      (l.set n a).countP p + (if p b then 1 else 0)
        = l.countP p + (if p a then 1 else 0) := by
  intro l
  induction l with
  | nil => intro n a b h; simp at h
  | cons x xs ih =>
    intro n a b h
    cases n with
    | zero =>
      simp only [List.getElem?_cons_zero, Option.some.injEq] at h
      subst h
      simp only [List.set_cons_zero, List.countP_cons]
      omega
    | succ n =>
      simp only [List.getElem?_cons_succ] at h
      simp only [List.set_cons_succ, List.countP_cons]
      have := ih n a b h
      omega

theorem append_singleton_cases {α : Type} {l t1 t2 : List α} {e x : α}
    (h : l ++ [e] = t1 ++ x :: t2) :
    (t1 = l ∧ x = e ∧ t2 = []) ∨ ∃ t2p, l = t1 ++ x :: t2p ∧ t2 = t2p ++ [e] := by
  rcases List.eq_nil_or_concat t2 with h2 | ⟨t2p, b, h2⟩
  · subst h2
    have hlen : l.length = t1.length := by
      have := congrArg List.length h
      simp at this
      omega
    obtain ⟨h3, h4⟩ := List.append_inj h hlen
    have h5 : x = e := by simpa using h4.symm
    exact Or.inl ⟨h3.symm, h5, rfl⟩
  · subst h2
    rw [List.concat_eq_append] at h
    have h' : l ++ [e] = (t1 ++ x :: t2p) ++ [b] := by
      simpa [List.append_assoc] using h
    have hlen : l.length = (t1 ++ x :: t2p).length := by
      have := congrArg List.length h'
      simp [List.length_append] at this ⊢
      omega
    obtain ⟨h3, h4⟩ := List.append_inj h' hlen
    have h5 : e = b := by simpa using h4
    exact Or.inr ⟨t2p, h3, by rw [h5, List.concat_eq_append]⟩

theorem two_le_countP {α : Type} {l : List α} {p : α → Bool} {a b : α}
    (ha : a ∈ l) (hb : b ∈ l) (hab : a ≠ b) (hpa : p a = true) (hpb : p b = true) :
    2 ≤ l.countP p := by
  obtain ⟨s, t, rfl⟩ := List.append_of_mem ha
  have hb' : b ∈ s ∨ b ∈ t := by
    rcases List.mem_append.mp hb with h | h
    · exact Or.inl h
    · rcases List.mem_cons.mp h with h | h
      · exact absurd h.symm hab
      · exact Or.inr h
  have hcount : (s ++ a :: t).countP p = s.countP p + (t.countP p + 1) := by
    rw [List.countP_append, List.countP_cons]
    simp [hpa]
  rcases hb' with h | h
  · have : 0 < s.countP p := List.countP_pos_iff.mpr ⟨b, h, hpb⟩
    omega
  · have : 0 < t.countP p := List.countP_pos_iff.mpr ⟨b, h, hpb⟩
    omega

theorem mem_workers_iff {ws : List WStatus} {st : WStatus} :
    st ∈ ws ↔ ∃ w : Nat, ws[w]? = some st := by
  constructor
  · intro h
    obtain ⟨n, hn, rfl⟩ := List.getElem_of_mem h
    exact ⟨n, by simp [List.getElem?_eq_getElem hn]⟩
  · intro ⟨w, hw⟩
    exact List.getElem?_mem hw

theorem countP_append_singleton (p : Event → Bool) (tr : List Event) (e : Event) :
    (tr ++ [e]).countP p = tr.countP p + (if p e then 1 else 0) := by
  simp [List.countP_append, List.countP_cons, List.countP_nil]

/-! Section: The system invariant

`Inv` collects every safety fact needed for the concurrency claims; it is
preserved by every `Step` from the post-spawn initial state. -/

structure Inv (basename : String) (init : SysState) (s : SysState) (tr : List Event) : Prop where
  mergingDone : s.mainPh.isMerging = true → ∀ st ∈ s.workers, st = WStatus.done
  mergingJoined : s.mainPh.isMerging = true → Event.joinAll ∈ tr
  mergeEvPhase : ∀ e ∈ tr, e.isMergeEv = true → s.mainPh.isMerging = true
  split : ∃ t1 t2, tr = t1 ++ t2 ∧ (∀ e ∈ t1, e.isMergeEv = false) ∧
      (∀ e ∈ t2, e.isWorkerEv = false) ∧ (s.mainPh.isMerging = false → t2 = [])
  assertSafe : ∀ t1 ok t2, tr = t1 ++ Event.assertCheck ok :: t2 →
      (∀ w : Nat, Event.exitW w ∉ t1) → ok = true
  doneExit : ∀ w : Nat, s.workers[w]? = some WStatus.done → Event.exitW w ∈ tr
  popQueue : ∀ i, popIdxCount tr i + queueIdxCount s.queue i = queueIdxCount init.queue i
  popHold : ∀ i, finishIdxCount tr i + holdIdxCount s.workers i = popIdxCount tr i
  savePath : ∀ w it p, Event.save w it p ∈ tr → p = outfile basename it.index

theorem assertSafe_extend {tr : List Event} {e : Event}
    (hne : ∀ ok : Bool, e ≠ Event.assertCheck ok)
    (ih : ∀ t1 ok t2, tr = t1 ++ Event.assertCheck ok :: t2 →
      (∀ w : Nat, Event.exitW w ∉ t1) → ok = true) :
    ∀ t1 ok t2, tr ++ [e] = t1 ++ Event.assertCheck ok :: t2 →
      (∀ w : Nat, Event.exitW w ∉ t1) → ok = true := by
  intro t1 ok t2 h hno
  rcases append_singleton_cases h with ⟨_, h2, _⟩ | ⟨t2p, h1, _⟩
  · exact absurd h2.symm (hne ok)
  · exact ih t1 ok t2p h1 hno

theorem savePath_extend {basename : String} {tr : List Event} {e : Event}
    (hne : ∀ (w : Nat) (it : Item) (p : String), e ≠ Event.save w it p)
    (ih : ∀ (w : Nat) (it : Item) (p : String),
      Event.save w it p ∈ tr → p = outfile basename it.index) :
    ∀ (w : Nat) (it : Item) (p : String),
      Event.save w it p ∈ tr ++ [e] → p = outfile basename it.index := by
  intro w it p h
  rcases List.mem_append.mp h with h | h
  · exact ih w it p h
  · exact absurd (List.mem_singleton.mp h).symm (hne w it p)

theorem notMerging_of_live {basename : String} {init s : SysState} {tr : List Event}
    (inv : Inv basename init s tr)
    {w : Nat} {st : WStatus} (hw : s.workers[w]? = some st) (hst : st ≠ WStatus.done) :
    s.mainPh.isMerging = false := by
  cases hx : s.mainPh.isMerging
  · rfl
  · exact absurd (inv.mergingDone hx st (List.getElem?_mem hw)) hst

theorem popIdxCount_append (tr : List Event) (e : Event) (i : Nat) :
    popIdxCount (tr ++ [e]) i = popIdxCount tr i + (if isPopIdx i e then 1 else 0) :=
  countP_append_singleton _ tr e

theorem finishIdxCount_append (tr : List Event) (e : Event) (i : Nat) :
    finishIdxCount (tr ++ [e]) i = finishIdxCount tr i + (if isFinishIdx i e then 1 else 0) :=
  countP_append_singleton _ tr e

theorem popIdxCount_append_nopop (tr : List Event) {e : Event} {i : Nat}
    (he : isPopIdx i e = false) : popIdxCount (tr ++ [e]) i = popIdxCount tr i := by
  rw [popIdxCount_append, he]
  simp

theorem finishIdxCount_append_nofinish (tr : List Event) {e : Event} {i : Nat}
    (he : isFinishIdx i e = false) : finishIdxCount (tr ++ [e]) i = finishIdxCount tr i := by
  rw [finishIdxCount_append, he]
  simp

theorem no_merge_extend {basename : String} {init s : SysState} {tr : List Event}
    (ih : Inv basename init s tr) (hnm : s.mainPh.isMerging = false)
    {e : Event} (hem : e.isMergeEv = false) :
    ∀ x ∈ tr ++ [e], x.isMergeEv = false := by
  intro x hx
  rcases List.mem_append.mp hx with hx | hx
  · cases hmx : x.isMergeEv
    · rfl
    · have := ih.mergeEvPhase x hx hmx
      rw [hnm] at this
      exact absurd this (by decide)
  · rw [List.mem_singleton.mp hx]
    exact hem

theorem split_of_no_merge {tr : List Event} {e : Event}
    (hall : ∀ x ∈ tr ++ [e], x.isMergeEv = false) (b : Bool) :
    ∃ t1 t2, tr ++ [e] = t1 ++ t2 ∧ (∀ x ∈ t1, x.isMergeEv = false) ∧
      (∀ x ∈ t2, x.isWorkerEv = false) ∧ (b = false → t2 = []) :=
  ⟨tr ++ [e], [], (List.append_nil _).symm, hall, by simp, fun _ => rfl⟩

theorem doneExit_set_notDone {ws : List WStatus} {tr : List Event} {e : Event}
    {w : Nat} {stNew : WStatus} (hwlt : w < ws.length) (hnew : stNew ≠ WStatus.done)
    (ih : ∀ v : Nat, ws[v]? = some WStatus.done → Event.exitW v ∈ tr) :
    ∀ v : Nat, (ws.set w stNew)[v]? = some WStatus.done → Event.exitW v ∈ tr ++ [e] := by
  intro v hv
  by_cases hwv : w = v
  · subst hwv
    have hset : (ws.set w stNew)[w]? = some stNew := by
      rw [List.getElem?_set_self']
      simp [List.getElem?_eq_getElem hwlt]
    rw [hset] at hv
    exact absurd (Option.some.inj hv) hnew
  · rw [List.getElem?_set_ne hwv] at hv
    exact List.mem_append_left _ (ih v hv)

/-- Every reachable configuration of the interleaved model satisfies the
invariant. -/
theorem reach_inv (basename : String) (items : List Item) (k : Nat) (fs0 : List String)
    (s : SysState) (tr : List Event)
    (h : Reach basename (mkInit items k fs0) s tr) :
    Inv basename (mkInit items k fs0) s tr := by
  induction h with
  | refl =>
    refine ⟨?_, ?_, ?_, ?_, ?_, ?_, ?_, ?_, ?_⟩
    · intro h
      have h' : MPhase.isMerging MPhase.asserting = true := h
      exact absurd h' (by decide)
    · intro h
      have h' : MPhase.isMerging MPhase.asserting = true := h
      exact absurd h' (by decide)
    · intro e he
      simp at he
    · exact ⟨[], [], rfl, by simp, by simp, fun _ => rfl⟩
    · intro t1 ok t2 h _
      have := congrArg List.length h
      simp at this
      omega
    · intro w hw
      have hw' : (List.replicate k WStatus.idle)[w]? = some WStatus.done := hw
      rcases List.getElem?_eq_some.mp hw' with ⟨h1, h2⟩
      rw [List.getElem_replicate] at h2
      exact absurd h2 (by decide)
    · intro i
      simp [popIdxCount, List.countP_nil]
    · intro i
      have hzero : holdIdxCount (List.replicate k WStatus.idle) i = 0 := by
        apply List.countP_eq_zero.mpr
        intro st hst
        rw [List.eq_of_mem_replicate hst]
        simp [holdsIdx]
      show finishIdxCount [] i + holdIdxCount (List.replicate k WStatus.idle) i
        = popIdxCount [] i
      simp [finishIdxCount, popIdxCount, List.countP_nil, hzero]
    · intro w it p hsp
      simp at hsp
  | step s tr e s' hr hs ih =>
    cases hs with
    | popItem w it rest hw hq =>
      have hwlt : w < s.workers.length := (List.getElem?_eq_some.mp hw).1
      have hnm : s.mainPh.isMerging = false :=
        notMerging_of_live ih hw (by intro hcon; cases hcon)
      have hall := no_merge_extend ih hnm (e := Event.pop w it) rfl
      refine ⟨?_, ?_, ?_, ?_, ?_, ?_, ?_, ?_, ?_⟩
      · intro h
        have h' : s.mainPh.isMerging = true := h
        rw [hnm] at h'
        exact absurd h' (by decide)
      · intro h
        have h' : s.mainPh.isMerging = true := h
        rw [hnm] at h'
        exact absurd h' (by decide)
      · intro x hx hmx
        rw [hall x hx] at hmx
        exact absurd hmx (by decide)
      · exact split_of_no_merge hall _
      · exact assertSafe_extend (by intro ok h; cases h) ih.assertSafe
      · exact doneExit_set_notDone hwlt (by intro hcon; cases hcon) ih.doneExit
      · intro i
        have hq' := ih.popQueue i
        rw [hq] at hq'
        show popIdxCount (tr ++ [Event.pop w it]) i + queueIdxCount rest i
          = queueIdxCount (mkInit items k fs0).queue i
        rw [popIdxCount_append]
        simp only [isPopIdx]
        simp only [queueIdxCount, List.countP_cons] at hq' ⊢
        omega
      · intro i
        have hset := countP_set (holdsIdx i) s.workers w (WStatus.checking it) WStatus.idle hw
        have hold := ih.popHold i
        show finishIdxCount (tr ++ [Event.pop w it]) i
            + holdIdxCount (s.workers.set w (WStatus.checking it)) i
          = popIdxCount (tr ++ [Event.pop w it]) i
        rw [finishIdxCount_append_nofinish tr (e := Event.pop w it) rfl, popIdxCount_append]
        simp only [isPopIdx]
        simp only [holdsIdx] at hset
        simp only [holdIdxCount] at hset hold ⊢
        simp only [Bool.false_eq_true, if_false] at hset
        omega
      · exact savePath_extend (by intro v jt p h; cases h) ih.savePath
    | queueEmpty w hw hq =>
      have hwlt : w < s.workers.length := (List.getElem?_eq_some.mp hw).1
      have hnm : s.mainPh.isMerging = false :=
        notMerging_of_live ih hw (by intro hcon; cases hcon)
      have hall := no_merge_extend ih hnm (e := Event.exitW w) rfl
      refine ⟨?_, ?_, ?_, ?_, ?_, ?_, ?_, ?_, ?_⟩
      · intro h
        have h' : s.mainPh.isMerging = true := h
        rw [hnm] at h'
        exact absurd h' (by decide)
      · intro h
        have h' : s.mainPh.isMerging = true := h
        rw [hnm] at h'
        exact absurd h' (by decide)
      · intro x hx hmx
        rw [hall x hx] at hmx
        exact absurd hmx (by decide)
      · exact split_of_no_merge hall _
      · exact assertSafe_extend (by intro ok h; cases h) ih.assertSafe
      · intro v hv
        by_cases hwv : w = v
        · subst hwv
          exact List.mem_append_right _ (List.mem_singleton.mpr rfl)
        · have hv' : (s.workers.set w WStatus.done)[v]? = some WStatus.done := hv
          rw [List.getElem?_set_ne hwv] at hv'
          exact List.mem_append_left _ (ih.doneExit v hv')
      · intro i
        have hq' := ih.popQueue i
        rw [popIdxCount_append_nopop tr (e := Event.exitW w) rfl]
        exact hq'
      · intro i
        have hset := countP_set (holdsIdx i) s.workers w WStatus.done WStatus.idle hw
        have hold := ih.popHold i
        show finishIdxCount (tr ++ [Event.exitW w]) i
            + holdIdxCount (s.workers.set w WStatus.done) i
          = popIdxCount (tr ++ [Event.exitW w]) i
        rw [finishIdxCount_append_nofinish tr (e := Event.exitW w) rfl, popIdxCount_append_nopop tr (e := Event.exitW w) rfl]
        simp only [holdsIdx] at hset
        simp only [holdIdxCount] at hset hold ⊢
        simp only [Bool.false_eq_true, if_false] at hset
        omega
      · exact savePath_extend (by intro v jt p h; cases h) ih.savePath
    | skipExisting w it hw hex =>
      have hwlt : w < s.workers.length := (List.getElem?_eq_some.mp hw).1
      have hnm : s.mainPh.isMerging = false :=
        notMerging_of_live ih hw (by intro hcon; cases hcon)
      have hall := no_merge_extend ih hnm (e := Event.skip w it) rfl
      refine ⟨?_, ?_, ?_, ?_, ?_, ?_, ?_, ?_, ?_⟩
      · intro h
        have h' : s.mainPh.isMerging = true := h
        rw [hnm] at h'
        exact absurd h' (by decide)
      · intro h
        have h' : s.mainPh.isMerging = true := h
        rw [hnm] at h'
        exact absurd h' (by decide)
      · intro x hx hmx
        rw [hall x hx] at hmx
        exact absurd hmx (by decide)
      · exact split_of_no_merge hall _
      · exact assertSafe_extend (by intro ok h; cases h) ih.assertSafe
      · exact doneExit_set_notDone hwlt (by intro hcon; cases hcon) ih.doneExit
      · intro i
        have hq' := ih.popQueue i
        rw [popIdxCount_append_nopop tr (e := Event.skip w it) rfl]
        exact hq'
      · intro i
        have hset := countP_set (holdsIdx i) s.workers w WStatus.idle (WStatus.checking it) hw
        have hold := ih.popHold i
        show finishIdxCount (tr ++ [Event.skip w it]) i
            + holdIdxCount (s.workers.set w WStatus.idle) i
          = popIdxCount (tr ++ [Event.skip w it]) i
        rw [finishIdxCount_append, popIdxCount_append_nopop tr (e := Event.skip w it) rfl]
        simp only [isFinishIdx]
        simp only [holdsIdx] at hset
        simp only [holdIdxCount] at hset hold ⊢
        simp only [Bool.false_eq_true, if_false] at hset
        omega
      · exact savePath_extend (by intro v jt p h; cases h) ih.savePath
    | startCompute w it hw hex =>
      have hwlt : w < s.workers.length := (List.getElem?_eq_some.mp hw).1
      have hnm : s.mainPh.isMerging = false :=
        notMerging_of_live ih hw (by intro hcon; cases hcon)
      have hall := no_merge_extend ih hnm (e := Event.compute w it) rfl
      refine ⟨?_, ?_, ?_, ?_, ?_, ?_, ?_, ?_, ?_⟩
      · intro h
        have h' : s.mainPh.isMerging = true := h
        rw [hnm] at h'
        exact absurd h' (by decide)
      · intro h
        have h' : s.mainPh.isMerging = true := h
        rw [hnm] at h'
        exact absurd h' (by decide)
      · intro x hx hmx
        rw [hall x hx] at hmx
        exact absurd hmx (by decide)
      · exact split_of_no_merge hall _
      · exact assertSafe_extend (by intro ok h; cases h) ih.assertSafe
      · exact doneExit_set_notDone hwlt (by intro hcon; cases hcon) ih.doneExit
      · intro i
        have hq' := ih.popQueue i
        rw [popIdxCount_append_nopop tr (e := Event.compute w it) rfl]
        exact hq'
      · intro i
        have hset := countP_set (holdsIdx i) s.workers w (WStatus.computing it)
          (WStatus.checking it) hw
        have hold := ih.popHold i
        show finishIdxCount (tr ++ [Event.compute w it]) i
            + holdIdxCount (s.workers.set w (WStatus.computing it)) i
          = popIdxCount (tr ++ [Event.compute w it]) i
        rw [finishIdxCount_append_nofinish tr (e := Event.compute w it) rfl, popIdxCount_append_nopop tr (e := Event.compute w it) rfl]
        simp only [holdsIdx] at hset
        simp only [holdIdxCount] at hset hold ⊢
        omega
      · exact savePath_extend (by intro v jt p h; cases h) ih.savePath
    | saveSubset w it hw =>
      have hwlt : w < s.workers.length := (List.getElem?_eq_some.mp hw).1
      have hnm : s.mainPh.isMerging = false :=
        notMerging_of_live ih hw (by intro hcon; cases hcon)
      have hall := no_merge_extend ih hnm
        (e := Event.save w it (outfile basename it.index)) rfl
      refine ⟨?_, ?_, ?_, ?_, ?_, ?_, ?_, ?_, ?_⟩
      · intro h
        have h' : s.mainPh.isMerging = true := h
        rw [hnm] at h'
        exact absurd h' (by decide)
      · intro h
        have h' : s.mainPh.isMerging = true := h
        rw [hnm] at h'
        exact absurd h' (by decide)
      · intro x hx hmx
        rw [hall x hx] at hmx
        exact absurd hmx (by decide)
      · exact split_of_no_merge hall _
      · exact assertSafe_extend (by intro ok h; cases h) ih.assertSafe
      · exact doneExit_set_notDone hwlt (by intro hcon; cases hcon) ih.doneExit
      · intro i
        have hq' := ih.popQueue i
        rw [popIdxCount_append_nopop tr (e := Event.save w it (outfile basename it.index)) rfl]
        exact hq'
      · intro i
        have hset := countP_set (holdsIdx i) s.workers w WStatus.idle (WStatus.computing it) hw
        have hold := ih.popHold i
        show finishIdxCount (tr ++ [Event.save w it (outfile basename it.index)]) i
            + holdIdxCount (s.workers.set w WStatus.idle) i
          = popIdxCount (tr ++ [Event.save w it (outfile basename it.index)]) i
        rw [finishIdxCount_append, popIdxCount_append_nopop tr (e := Event.save w it (outfile basename it.index)) rfl]
        simp only [isFinishIdx]
        simp only [holdsIdx] at hset
        simp only [holdIdxCount] at hset hold ⊢
        simp only [Bool.false_eq_true, if_false] at hset
        omega
      · intro v jt p hp
        rcases List.mem_append.mp hp with hp | hp
        · exact ih.savePath v jt p hp
        · have heq := List.mem_singleton.mp hp
          injection heq with h1 h2 h3
          subst h2
          subst h3
          rfl
    | assertStep hm =>
      have hnm : s.mainPh.isMerging = false := by rw [hm]; rfl
      have hall := no_merge_extend ih hnm (e := Event.assertCheck (assertOk s)) rfl
      refine ⟨?_, ?_, ?_, ?_, ?_, ?_, ?_, ?_, ?_⟩
      · intro h
        have h' : MPhase.isMerging MPhase.joining = true := h
        exact absurd h' (by decide)
      · intro h
        have h' : MPhase.isMerging MPhase.joining = true := h
        exact absurd h' (by decide)
      · intro x hx hmx
        rw [hall x hx] at hmx
        exact absurd hmx (by decide)
      · exact split_of_no_merge hall _
      · intro t1 ok t2 h hno
        rcases append_singleton_cases h with ⟨h1, h2, _⟩ | ⟨t2p, h1, _⟩
        · injection h2 with hok
          subst h1
          have hnodone : ∀ st ∈ s.workers, st ≠ WStatus.done := by
            intro st hmem heq
            obtain ⟨v, hv⟩ := mem_workers_iff.mp hmem
            rw [heq] at hv
            exact hno v (ih.doneExit v hv)
          have hlive : liveCount s = s.workers.length := by
            unfold liveCount
            rw [List.filter_eq_self.mpr]
            intro st hmem
            simpa using hnodone st hmem
          rw [hok]
          simp only [assertOk, hlive]
          simp only [decide_eq_true_eq]
          omega
        · exact ih.assertSafe t1 ok t2p h1 hno
      · intro v hv
        have hv' : s.workers[v]? = some WStatus.done := hv
        exact List.mem_append_left _ (ih.doneExit v hv')
      · intro i
        have hq' := ih.popQueue i
        rw [popIdxCount_append_nopop tr (e := Event.assertCheck (assertOk s)) rfl]
        exact hq'
      · intro i
        have hold := ih.popHold i
        show finishIdxCount (tr ++ [Event.assertCheck (assertOk s)]) i
            + holdIdxCount s.workers i
          = popIdxCount (tr ++ [Event.assertCheck (assertOk s)]) i
        rw [finishIdxCount_append_nofinish tr (e := Event.assertCheck (assertOk s)) rfl, popIdxCount_append_nopop tr (e := Event.assertCheck (assertOk s)) rfl]
        exact hold
      · exact savePath_extend (by intro v jt p h; cases h) ih.savePath
    | joinStep hm hall =>
      refine ⟨?_, ?_, ?_, ?_, ?_, ?_, ?_, ?_, ?_⟩
      · intro _ st hst
        exact hall st hst
      · intro _
        exact List.mem_append_right _ (List.mem_singleton.mpr rfl)
      · intro x hx hmx
        rfl
      · obtain ⟨t1, t2, htr, hm1, _, hnil⟩ := ih.split
        have hnm : s.mainPh.isMerging = false := by rw [hm]; rfl
        have ht1 : tr = t1 := by rw [htr, hnil hnm, List.append_nil]
        refine ⟨tr ++ [Event.joinAll], [], (List.append_nil _).symm, ?_, by simp, ?_⟩
        · intro x hx
          rcases List.mem_append.mp hx with hx | hx
          · exact hm1 x (ht1 ▸ hx)
          · rw [List.mem_singleton.mp hx]
            rfl
        · intro h
          exact Bool.noConfusion h
      · exact assertSafe_extend (by intro ok h; cases h) ih.assertSafe
      · intro v hv
        have hv' : s.workers[v]? = some WStatus.done := hv
        exact List.mem_append_left _ (ih.doneExit v hv')
      · intro i
        have hq' := ih.popQueue i
        rw [popIdxCount_append_nopop tr (e := Event.joinAll) rfl]
        exact hq'
      · intro i
        have hold := ih.popHold i
        show finishIdxCount (tr ++ [Event.joinAll]) i + holdIdxCount s.workers i
          = popIdxCount (tr ++ [Event.joinAll]) i
        rw [finishIdxCount_append_nofinish tr (e := Event.joinAll) rfl, popIdxCount_append_nopop tr (e := Event.joinAll) rfl]
        exact hold
      · exact savePath_extend (by intro v jt p h; cases h) ih.savePath
    | mergeStep f rest hm =>
      have hmg : s.mainPh.isMerging = true := by rw [hm]; rfl
      refine ⟨?_, ?_, ?_, ?_, ?_, ?_, ?_, ?_, ?_⟩
      · intro _ st hst
        exact ih.mergingDone hmg st hst
      · intro _
        exact List.mem_append_left _ (ih.mergingJoined hmg)
      · intro x hx hmx
        rfl
      · obtain ⟨t1, t2, htr, hm1, hw2, _⟩ := ih.split
        refine ⟨t1, t2 ++ [Event.mergeFile f], by rw [htr, List.append_assoc], hm1, ?_, ?_⟩
        · intro x hx
          rcases List.mem_append.mp hx with hx | hx
          · exact hw2 x hx
          · rw [List.mem_singleton.mp hx]
            rfl
        · intro h
          exact Bool.noConfusion h
      · exact assertSafe_extend (by intro ok h; cases h) ih.assertSafe
      · intro v hv
        have hv' : s.workers[v]? = some WStatus.done := hv
        exact List.mem_append_left _ (ih.doneExit v hv')
      · intro i
        have hq' := ih.popQueue i
        rw [popIdxCount_append_nopop tr (e := Event.mergeFile f) rfl]
        exact hq'
      · intro i
        have hold := ih.popHold i
        show finishIdxCount (tr ++ [Event.mergeFile f]) i + holdIdxCount s.workers i
          = popIdxCount (tr ++ [Event.mergeFile f]) i
        rw [finishIdxCount_append_nofinish tr (e := Event.mergeFile f) rfl, popIdxCount_append_nopop tr (e := Event.mergeFile f) rfl]
        exact hold
      · exact savePath_extend (by intro v jt p h; cases h) ih.savePath


/-! Section: Properties of the partitioner and the sequential worker loop -/

theorem workItems_map_index (divvy : List Nat) :
    (workItems divvy).map Item.index = List.range divvy.length := by
  simp only [workItems, List.map_map]
  exact List.map_id' _

theorem workItems_length (divvy : List Nat) :
    (workItems divvy).length = divvy.length := by
  simp [workItems]

theorem outfile_injective (b : String) : Function.Injective (fun i => outfile b i) :=
  fun _ _ h => outfile_inj b h

theorem workItems_outfiles_nodup (b : String) (divvy : List Nat) :
    ((workItems divvy).map (fun it => outfile b it.index)).Nodup := by
  have h1 : (workItems divvy).map (fun it => outfile b it.index)
      = (List.range divvy.length).map (fun i => outfile b i) := by
    simp only [workItems, List.map_map]
    rfl
  rw [h1]
  exact (List.nodup_range _).map (outfile_injective b)

theorem processItems_mem_mono (b : String) :
    ∀ (items : List Item) (fs : List String) (p : String),
      p ∈ fs → p ∈ (processItems b items fs).2 := by
  intro items
  induction items with
  | nil =>
    intro fs p hp
    exact hp
  | cons it rest ih =>
    intro fs p hp
    by_cases hmem : outfile b it.index ∈ fs
    · rw [processItems, if_pos hmem]
      exact ih fs p hp
    · rw [processItems, if_neg hmem]
      exact ih (fs ++ [outfile b it.index]) p (List.mem_append_left _ hp)

theorem processItems_outfile_mem (b : String) :
    ∀ (items : List Item) (fs : List String),
      ∀ it ∈ items, outfile b it.index ∈ (processItems b items fs).2 := by
  intro items
  induction items with
  | nil =>
    intro fs it hit
    simp at hit
  | cons hd rest ih =>
    intro fs it hit
    rcases List.mem_cons.mp hit with rfl | hit
    · by_cases hmem : outfile b it.index ∈ fs
      · rw [processItems, if_pos hmem]
        exact processItems_mem_mono b rest fs _ hmem
      · rw [processItems, if_neg hmem]
        exact processItems_mem_mono b rest _ _ (List.mem_append_right _ (List.mem_singleton.mpr rfl))
    · by_cases hmem : outfile b hd.index ∈ fs
      · rw [processItems, if_pos hmem]
        exact ih fs it hit
      · rw [processItems, if_neg hmem]
        exact ih _ it hit

theorem processItems_computed (b : String) :
    ∀ (items : List Item) (S fs0 : List String),
      ((items.map (fun it => outfile b it.index)).Nodup) →
      (∀ it ∈ items, (outfile b it.index ∈ S ↔ outfile b it.index ∈ fs0)) →
      (processItems b items S).1
        = (items.filter (fun it => decide (outfile b it.index ∉ fs0))).map Item.index := by
  intro items
  induction items with
  | nil =>
    intro S fs0 _ _
    rfl
  | cons it rest ih =>
    intro S fs0 hnd hiff
    rw [List.map_cons, List.nodup_cons] at hnd
    obtain ⟨hnotin, hndrest⟩ := hnd
    have hiffhead := hiff it (List.mem_cons_self it rest)
    by_cases hS : outfile b it.index ∈ S
    · have hfs0 : outfile b it.index ∈ fs0 := hiffhead.mp hS
      rw [processItems, if_pos hS]
      rw [ih S fs0 hndrest (fun jt hjt => hiff jt (List.mem_cons_of_mem it hjt))]
      rw [List.filter_cons]
      simp [hfs0]
    · have hfs0 : outfile b it.index ∉ fs0 := fun h => hS (hiffhead.mpr h)
      rw [processItems, if_neg hS]
      have hiff' : ∀ jt ∈ rest,
          (outfile b jt.index ∈ S ++ [outfile b it.index] ↔ outfile b jt.index ∈ fs0) := by
        intro jt hjt
        have hne : outfile b jt.index ≠ outfile b it.index := by
          intro heq
          exact hnotin (heq ▸ List.mem_map_of_mem (fun kt => outfile b kt.index) hjt)
        rw [List.mem_append, List.mem_singleton]
        constructor
        · intro h
          rcases h with h | h
          · exact (hiff jt (List.mem_cons_of_mem it hjt)).mp h
          · exact absurd h hne
        · intro h
          exact Or.inl ((hiff jt (List.mem_cons_of_mem it hjt)).mpr h)
      show it.index :: (processItems b rest (S ++ [outfile b it.index])).1
        = ((it :: rest).filter (fun jt => decide (outfile b jt.index ∉ fs0))).map Item.index
      rw [ih (S ++ [outfile b it.index]) fs0 hndrest hiff']
      rw [List.filter_cons]
      simp [hfs0]

/-! Section: Closed form of the work items over the spec-modelled engine offsets -/

theorem specDivvy_length (T S : Nat) : (specDivvy T S).length = (T + S - 1) / S := by
  simp [specDivvy]

theorem specDivvy_append_getD (T S j : Nat) :
    ((specDivvy T S) ++ [0]).getD j 0 = if j < (T + S - 1) / S then j * S else 0 := by
  rw [List.getD_eq_getElem?_getD]
  by_cases hj : j < (T + S - 1) / S
  · rw [List.getElem?_append_left (by simpa [specDivvy_length] using hj)]
    simp [specDivvy, List.getElem?_map, List.getElem?_range hj, hj]
  · rw [List.getElem?_append_right (by simpa [specDivvy_length] using Nat.le_of_not_lt hj)]
    rw [if_neg hj]
    rcases Nat.eq_zero_or_pos (j - (specDivvy T S).length) with h0 | hpos
    · simp [h0]
    · rw [List.getElem?_eq_none (by simp only [List.length_singleton]; omega)]
      rfl

theorem workItems_specDivvy_getElem? (T S i : Nat) (h : i < (T + S - 1) / S) :
    (workItems (specDivvy T S))[i]? =
      some { index := i, start := i * S,
             stop := (if i + 1 < (T + S - 1) / S then (i + 1) * S else 0) } := by
  have hlen : i < (List.range (specDivvy T S).length).length := by
    simpa [specDivvy_length] using h
  rw [workItems]
  rw [List.getElem?_map, List.getElem?_range (by simpa [specDivvy_length] using h)]
  rw [Option.map_some']
  have h1 : ((specDivvy T S) ++ [0]).getD i 0 = i * S := by
    rw [specDivvy_append_getD, if_pos h]
  have h2 : ((specDivvy T S) ++ [0]).getD (i + 1) 0
      = if i + 1 < (T + S - 1) / S then (i + 1) * S else 0 := specDivvy_append_getD T S (i + 1)
  rw [h1, h2]

theorem mem_workItems_specDivvy (T S : Nat) (it : Item) :
    it ∈ workItems (specDivvy T S) ↔
      ∃ i, i < (T + S - 1) / S ∧
        it = { index := i, start := i * S,
               stop := (if i + 1 < (T + S - 1) / S then (i + 1) * S else 0) } := by
  rw [List.mem_iff_getElem?]
  constructor
  · intro ⟨i, hi⟩
    have hlt : i < (T + S - 1) / S := by
      by_contra hge
      rw [List.getElem?_eq_none] at hi
      · exact Option.noConfusion hi
      · simp only [workItems_length, specDivvy_length]
        omega
    rw [workItems_specDivvy_getElem? T S i hlt] at hi
    exact ⟨i, hlt, (Option.some.inj hi).symm⟩
  · intro ⟨i, hlt, heq⟩
    exact ⟨i, by rw [workItems_specDivvy_getElem? T S i hlt, heq]⟩

theorem ceil_bounds (T S : Nat) (hS : 0 < S) (hT : 0 < T) :
    0 < (T + S - 1) / S ∧ T ≤ (T + S - 1) / S * S ∧ ((T + S - 1) / S - 1) * S < T := by
  have hdm := Nat.div_add_mod (T + S - 1) S
  have hmod : (T + S - 1) % S < S := Nat.mod_lt _ hS
  have hcm : S * ((T + S - 1) / S) = (T + S - 1) / S * S := Nat.mul_comm _ _
  have hsub : ((T + S - 1) / S - 1) * S = (T + S - 1) / S * S - 1 * S := Nat.sub_mul _ _ _
  rw [Nat.one_mul] at hsub
  have hq1 : 0 < (T + S - 1) / S := by
    rcases Nat.eq_zero_or_pos ((T + S - 1) / S) with h0 | h
    · rw [h0, Nat.mul_zero] at hdm
      omega
    · exact h
  omega

theorem lt_succ_div_mul (x S : Nat) (hS : 0 < S) : x < (x / S + 1) * S := by
  have hdm := Nat.div_add_mod x S
  have hmod : x % S < S := Nat.mod_lt _ hS
  have hexp : (x / S + 1) * S = x / S * S + S := by rw [Nat.add_mul, Nat.one_mul]
  have hcm : S * (x / S) = x / S * S := Nat.mul_comm _ _
  omega

/-! Section: Claim theorems -/

/-- C1 counterexample: at domain size `T = 1000` and target subset size
`S = 300` (the spec's own concrete scenario), the work items built by
`main` are `(0,0,300), (1,300,600), (2,600,900), (3,900,0)`: the stop
offset of the last subset is the sentinel `0` and not `T = 1000`, and the
literal half-open ranges do not cover tag `950 ∈ [0, 1000)`. -/
theorem c1_counterexample :
    (¬ ((workItems (specDivvy 1000 300)).getLast?).map Item.stop = some 1000) ∧
    ((workItems (specDivvy 1000 300)).getLast?).map Item.stop = some 0 ∧
    (950 < 1000 ∧
      ¬ ∃ it ∈ workItems (specDivvy 1000 300), it.start ≤ 950 ∧ 950 < it.stop) := by
  decide

/-- C1 (amended): for every domain size `T > 0` and target subset size
`S > 0`, the work items built by the Task Partitioner from the
spec-modelled engine boundary offsets are contiguous, and — once the
trailing stop offset `0` is interpreted as the engine's end-of-domain
sentinel, i.e. as `T` — they are pairwise disjoint and their union is
exactly `[0, T)`.  The literal stop offset of the last subset is the
sentinel `0`, not `T`. -/
theorem c1_workItems_partition (T S : Nat) (hS : 0 < S) (hT : 0 < T) :
    (workItems (specDivvy T S)).length = (T + S - 1) / S ∧
    0 < (workItems (specDivvy T S)).length ∧
    ((workItems (specDivvy T S)).getLast?).map Item.stop = some 0 ∧
    (∀ j, j + 1 < (workItems (specDivvy T S)).length →
      ((workItems (specDivvy T S)).getD j default).stop
        = ((workItems (specDivvy T S)).getD (j + 1) default).start) ∧
    (∀ x, x < T ↔ ∃ it ∈ workItems (specDivvy T S), coversTag T it x) ∧
    (∀ it ∈ workItems (specDivvy T S), ∀ jt ∈ workItems (specDivvy T S),
      ∀ x, coversTag T it x → coversTag T jt x → it = jt) := by
  obtain ⟨hq0, hTq, hqT⟩ := ceil_bounds T S hS hT
  have hlen : (workItems (specDivvy T S)).length = (T + S - 1) / S := by
    rw [workItems_length, specDivvy_length]
  have hkey : ∀ i, i < (T + S - 1) / S → ∀ x : Nat,
      coversTag T { index := i, start := i * S,
                    stop := (if i + 1 < (T + S - 1) / S then (i + 1) * S else 0) } x →
      i * S ≤ x ∧ x < (i + 1) * S := by
    intro i hiq x hcov
    obtain ⟨hstart, hstop⟩ := hcov
    refine ⟨hstart, ?_⟩
    by_cases hi1 : i + 1 < (T + S - 1) / S
    · rw [if_pos hi1] at hstop
      have hne : (i + 1) * S ≠ 0 := Nat.ne_of_gt (Nat.mul_pos (Nat.succ_pos i) hS)
      rw [interpStop, if_neg hne] at hstop
      exact hstop
    · rw [if_neg hi1] at hstop
      rw [interpStop, if_pos rfl] at hstop
      have hiq1 : i + 1 = (T + S - 1) / S := by omega
      calc x < T := hstop
        _ ≤ (T + S - 1) / S * S := hTq
        _ = (i + 1) * S := by rw [hiq1]
  refine ⟨hlen, by omega, ?_, ?_, ?_, ?_⟩
  · rw [List.getLast?_eq_getElem?, hlen]
    have hlt : (T + S - 1) / S - 1 < (T + S - 1) / S := by omega
    rw [workItems_specDivvy_getElem? T S _ hlt]
    have hnot : ¬ ((T + S - 1) / S - 1) + 1 < (T + S - 1) / S := by omega
    rw [if_neg hnot]
    rfl
  · intro j hj
    rw [hlen] at hj
    have hjq : j < (T + S - 1) / S := by omega
    rw [List.getD_eq_getElem?_getD, List.getD_eq_getElem?_getD,
      workItems_specDivvy_getElem? T S j hjq, workItems_specDivvy_getElem? T S (j + 1) hj]
    rw [if_pos hj]
    rfl
  · intro x
    constructor
    · intro hx
      have hiq : x / S < (T + S - 1) / S :=
        (Nat.div_lt_iff_lt_mul hS).mpr (Nat.lt_of_lt_of_le hx hTq)
      refine ⟨_, mem_workItems_specDivvy T S _ |>.mpr ⟨x / S, hiq, rfl⟩, ?_, ?_⟩
      · exact Nat.div_mul_le_self x S
      · show x < interpStop T (if x / S + 1 < (T + S - 1) / S then (x / S + 1) * S else 0)
        by_cases hi1 : x / S + 1 < (T + S - 1) / S
        · rw [if_pos hi1]
          have hne : (x / S + 1) * S ≠ 0 := Nat.ne_of_gt (Nat.mul_pos (Nat.succ_pos _) hS)
          rw [interpStop, if_neg hne]
          exact lt_succ_div_mul x S hS
        · rw [if_neg hi1]
          rw [interpStop, if_pos rfl]
          exact hx
    · rintro ⟨it, hmem, hcov⟩
      obtain ⟨i, hiq, rfl⟩ := (mem_workItems_specDivvy T S it).mp hmem
      obtain ⟨hstart, hupper⟩ := hkey i hiq x hcov
      by_cases hi1 : i + 1 < (T + S - 1) / S
      · have h1 : i + 1 ≤ (T + S - 1) / S - 1 := by omega
        have h2 : (i + 1) * S ≤ ((T + S - 1) / S - 1) * S := Nat.mul_le_mul_right S h1
        omega
      · have hiq1 : i + 1 = (T + S - 1) / S := by omega
        obtain ⟨_, hstop⟩ := hcov
        rw [if_neg hi1] at hstop
        rw [interpStop, if_pos rfl] at hstop
        exact hstop
  · intro it hit jt hjt x hcx hcy
    obtain ⟨i, hiq, rfl⟩ := (mem_workItems_specDivvy T S it).mp hit
    obtain ⟨j, hjq, rfl⟩ := (mem_workItems_specDivvy T S jt).mp hjt
    obtain ⟨hi1, hi2⟩ := hkey i hiq x hcx
    obtain ⟨hj1, hj2⟩ := hkey j hjq x hcy
    have hdi : x / S = i := Nat.div_eq_of_lt_le hi1 hi2
    have hdj : x / S = j := Nat.div_eq_of_lt_le hj1 hj2
    have hij : i = j := by omega
    rw [hij]

/-- C1 witness: the amended statement instantiated at the spec's concrete
scenario `T = 1000`, `S = 300`. -/
theorem c1_workItems_partition_witness :
    0 < 300 ∧ 0 < 1000 ∧
    ((workItems (specDivvy 1000 300)).length = (1000 + 300 - 1) / 300 ∧
    0 < (workItems (specDivvy 1000 300)).length ∧
    ((workItems (specDivvy 1000 300)).getLast?).map Item.stop = some 0 ∧
    (∀ j, j + 1 < (workItems (specDivvy 1000 300)).length →
      ((workItems (specDivvy 1000 300)).getD j default).stop
        = ((workItems (specDivvy 1000 300)).getD (j + 1) default).start) ∧
    (∀ x, x < 1000 ↔ ∃ it ∈ workItems (specDivvy 1000 300), coversTag 1000 it x) ∧
    (∀ it ∈ workItems (specDivvy 1000 300), ∀ jt ∈ workItems (specDivvy 1000 300),
      ∀ x, coversTag 1000 it x → coversTag 1000 jt x → it = jt)) :=
  ⟨by decide, by decide, c1_workItems_partition 1000 300 (by decide) (by decide)⟩

/-- C2: in the worker loop, the engine subset-partition computation and
checkpoint save run for a work item exactly when its checkpoint file is
absent from the filesystem at the start of the run: the computed indices
are the filter of the queue by checkpoint absence.  Consequently, when
every checkpoint already exists nothing is recomputed, and when exactly
the checkpoints of indices `< k` exist, a rerun computes exactly the
missing indices `k, ..., n_subsets - 1`. -/
theorem c2_worker_skip_iff (b : String) (divvy : List Nat) (fs0 : List String) (k : Nat) :
    ((processItems b (workItems divvy) fs0).1
      = ((workItems divvy).filter
          (fun it => decide (outfile b it.index ∉ fs0))).map Item.index) ∧
    ((∀ it ∈ workItems divvy, outfile b it.index ∈ fs0) →
      (processItems b (workItems divvy) fs0).1 = []) ∧
    ((∀ it ∈ workItems divvy, (outfile b it.index ∈ fs0 ↔ it.index < k)) →
      (processItems b (workItems divvy) fs0).1
        = (List.range divvy.length).filter (fun i => decide (k ≤ i))) := by
  have ha := processItems_computed b (workItems divvy) fs0 fs0
    (workItems_outfiles_nodup b divvy) (fun it _ => Iff.rfl)
  refine ⟨ha, ?_, ?_⟩
  · intro hall
    rw [ha]
    have hnil : (workItems divvy).filter (fun it => decide (outfile b it.index ∉ fs0)) = [] := by
      apply List.filter_eq_nil_iff.mpr
      intro it hit
      simp [hall it hit]
    rw [hnil]
    rfl
  · intro hiff
    rw [ha]
    have hfe : (workItems divvy).filter (fun it => decide (outfile b it.index ∉ fs0))
        = (workItems divvy).filter (fun it => decide (k ≤ it.index)) := by
      apply List.filter_congr
      intro it hit
      have hi := hiff it hit
      simp only [decide_eq_decide]
      rw [hi]
      omega
    rw [hfe, ← workItems_map_index divvy, List.filter_map]
    rfl

/-- C2 witness: with subsets `0, 1` and only the checkpoint of index `0`
on disk, the rerun computes exactly index `1`. -/
theorem c2_worker_skip_iff_witness :
    (∀ it ∈ workItems [0, 2],
      (outfile ("g") it.index ∈ ["g.subset.0.pmap"] ↔ it.index < 1)) ∧
    (processItems ("g") (workItems [0, 2]) ["g.subset.0.pmap"]).1
      = (List.range (List.length [0, 2])).filter (fun i => decide (1 ≤ i)) :=
  ⟨by decide, (c2_worker_skip_iff ("g") [0, 2] ["g.subset.0.pmap"] 1).2.2 (by decide)⟩

/-- C6: the worker pool spawns exactly `min(configured_thread_count, n_subsets)`
threads; the adjustment at lines 178-179 of `main` equals the minimum. -/
theorem c6_adjustThreads_min (threads nSubsets : Nat) :
    adjustThreads threads nSubsets = min threads nSubsets := by
  rw [adjustThreads]
  split <;> omega

/-- C10: the Annotation Stage writes each input to
`os.path.basename(input) + '.part'` (a path in the working directory);
two inputs with equal base filenames share the output path, and the
content finally present at any path is the annotation of the last
processed input that wrote it (later writes replace earlier ones). -/
theorem c10_annotate_paths (inputs : List String) (aIn bIn p : String)
    (hab : osBasename aIn = osBasename bIn) :
    (annotateWrites inputs = inputs.map (fun f => (osBasename f ++ ".part", f))) ∧
    osBasename aIn ++ ".part" = osBasename bIn ++ ".part" ∧
    finalAt (annotateWrites inputs) p
      = (inputs.filter (fun f => decide (osBasename f ++ ".part" = p))).getLast? := by
  refine ⟨rfl, by rw [hab], ?_⟩
  rw [finalAt, annotateWrites, List.filter_map, List.getLast?_map]
  cases hX : (inputs.filter
      ((fun w : String × String => decide (w.1 = p)) ∘
        fun f => (osBasename f ++ ".part", f))).getLast? with
  | none =>
    have hsame : (inputs.filter
        ((fun w : String × String => decide (w.1 = p)) ∘
          fun f => (osBasename f ++ ".part", f))).getLast?
        = (inputs.filter (fun f => decide (osBasename f ++ ".part" = p))).getLast? := rfl
    rw [← hsame, hX]
    rfl
  | some v =>
    have hsame : (inputs.filter
        ((fun w : String × String => decide (w.1 = p)) ∘
          fun f => (osBasename f ++ ".part", f))).getLast?
        = (inputs.filter (fun f => decide (osBasename f ++ ".part" = p))).getLast? := rfl
    rw [← hsame, hX]
    rfl

/-- C10 witness: `dir1/r.fa` and `dir2/r.fa` collide on output path
`r.fa.part`, and the later input `dir2/r.fa` owns the final content. -/
theorem c10_annotate_paths_witness :
    osBasename ("dir1/r.fa") = osBasename ("dir2/r.fa") ∧
    ((annotateWrites ["dir1/r.fa", "dir2/r.fa"]
        = (["dir1/r.fa", "dir2/r.fa"] : List String).map
            (fun f => (osBasename f ++ ".part", f))) ∧
    osBasename ("dir1/r.fa") ++ ".part" = osBasename ("dir2/r.fa") ++ ".part" ∧
    finalAt (annotateWrites ["dir1/r.fa", "dir2/r.fa"]) ("r.fa.part")
      = ((["dir1/r.fa", "dir2/r.fa"] : List String).filter
          (fun f => decide (osBasename f ++ ".part" = "r.fa.part"))).getLast?) :=
  ⟨by decide,
    c10_annotate_paths ["dir1/r.fa", "dir2/r.fa"] ("dir1/r.fa") ("dir2/r.fa")
      ("r.fa.part") (by decide)⟩

theorem mergeStage_ok (b : String) (fs : List String) (hne : globPmaps b fs ≠ [])
    (r : Bool) :
    mergeStage b r fs
      = Except.ok (globPmaps b fs,
          if r then fs.filter (fun p => decide (p ∉ globPmaps b fs)) else fs) := by
  simp only [mergeStage]
  rw [if_neg hne]

/-- C5: after a successful Merge Stage with checkpoint removal enabled
(the default), every folded checkpoint file is deleted and zero files
matching the checkpoint pattern remain; with `--keep-subsets`
(removal disabled), the filesystem is unchanged and every folded
checkpoint file is still on disk. -/
theorem c5_cleanup (b : String) (fs : List String) (hne : globPmaps b fs ≠ []) :
    (∃ pr : List String × List String,
      mergeStage b true fs = Except.ok pr ∧ pr.1 = globPmaps b fs ∧
      globPmaps b pr.2 = [] ∧ (∀ p ∈ pr.1, p ∉ pr.2)) ∧
    (∃ pr : List String × List String,
      mergeStage b false fs = Except.ok pr ∧ pr.1 = globPmaps b fs ∧
      pr.2 = fs ∧ (∀ p ∈ pr.1, p ∈ pr.2)) := by
  constructor
  · refine ⟨(globPmaps b fs, fs.filter (fun p => decide (p ∉ globPmaps b fs))),
      ?_, rfl, ?_, ?_⟩
    · rw [mergeStage_ok b fs hne true]
      rfl
    · show List.filter (matchesPmap b)
        (List.filter (fun p => decide (p ∉ globPmaps b fs)) fs) = []
      apply List.filter_eq_nil_iff.mpr
      intro p hp hmatch
      have hp2 := (List.mem_filter.mp hp).2
      have hpin : p ∈ fs := (List.mem_filter.mp hp).1
      have hglob : p ∈ globPmaps b fs := List.mem_filter.mpr ⟨hpin, hmatch⟩
      simp only [decide_eq_true_eq] at hp2
      exact hp2 hglob
    · show ∀ p ∈ globPmaps b fs,
        p ∉ List.filter (fun p => decide (p ∉ globPmaps b fs)) fs
      intro p hp hpin
      have hp2 := (List.mem_filter.mp hpin).2
      simp only [decide_eq_true_eq] at hp2
      exact hp2 hp
  · refine ⟨(globPmaps b fs, fs), ?_, rfl, rfl, ?_⟩
    · rw [mergeStage_ok b fs hne false]
      rfl
    · show ∀ p ∈ globPmaps b fs, p ∈ fs
      intro p hp
      exact List.mem_of_mem_filter hp

/-- C5 witness: a filesystem holding the single checkpoint
`g.subset.0.pmap` (and an unrelated file). -/
theorem c5_cleanup_witness :
    globPmaps ("g") ["g.subset.0.pmap", "other.txt"] ≠ [] ∧
    ((∃ pr : List String × List String,
      mergeStage ("g") true ["g.subset.0.pmap", "other.txt"] = Except.ok pr ∧
      pr.1 = globPmaps ("g") ["g.subset.0.pmap", "other.txt"] ∧
      globPmaps ("g") pr.2 = [] ∧ (∀ p ∈ pr.1, p ∉ pr.2)) ∧
    (∃ pr : List String × List String,
      mergeStage ("g") false ["g.subset.0.pmap", "other.txt"] = Except.ok pr ∧
      pr.1 = globPmaps ("g") ["g.subset.0.pmap", "other.txt"] ∧
      pr.2 = ["g.subset.0.pmap", "other.txt"] ∧ (∀ p ∈ pr.1, p ∈ pr.2))) :=
  ⟨by decide, c5_cleanup ("g") ["g.subset.0.pmap", "other.txt"] (by decide)⟩

/-- C4: if the merge-stage glob over the post-worker filesystem finds no
checkpoint files, the run is fatal — modelled after the uncaught
`IndexError` raised by `pmap_files[0]` at line 210, the process ends with
a non-zero status — and no merge, no cleanup and no annotation happen:
nothing is merged, the filesystem is exactly what the workers left, and
no annotated outputs are produced. -/
theorem c4_merge_no_files (cfg : Config) (fpRate : ℚ) (divvy : List Nat) (fs0 : List String)
    (hgate : ¬(3 / 20 < fpRate ∧ cfg.force = false))
    (hglob : globPmaps cfg.graphbase
        (processItems cfg.graphbase (workItems divvy)
          (insertFile (cfg.graphbase ++ ".info") fs0)).2 = []) :
    run cfg fpRate divvy fs0
      = { err := some ExitErr.mergeNoFiles,
          computed := (processItems cfg.graphbase (workItems divvy)
            (insertFile (cfg.graphbase ++ ".info") fs0)).1,
          merged := [],
          fs := (processItems cfg.graphbase (workItems divvy)
            (insertFile (cfg.graphbase ++ ".info") fs0)).2,
          annotated := [] } := by
  have hm : mergeStage cfg.graphbase cfg.removeSubsets
      (processItems cfg.graphbase (workItems divvy)
        (insertFile (cfg.graphbase ++ ".info") fs0)).2
      = Except.error ExitErr.mergeNoFiles := by
    simp only [mergeStage]
    rw [if_pos hglob]
  simp only [run]
  rw [if_neg hgate, hm]

/-- C4 witness: an engine division with zero subsets and an empty initial
filesystem leave nothing for the glob to find. -/
theorem c4_merge_no_files_witness :
    (¬((3 : ℚ) / 20 < 0 ∧ (Config.mk ("g") (["in.fa"]) 4 true true).force = false)) ∧
    (globPmaps ("g")
      (processItems ("g") (workItems ([] : List Nat))
        (insertFile ("g" ++ ".info") ([] : List String))).2 = []) ∧
    run (Config.mk ("g") (["in.fa"]) 4 true true) 0 ([] : List Nat) ([] : List String)
      = { err := some ExitErr.mergeNoFiles,
          computed := (processItems ("g") (workItems ([] : List Nat))
            (insertFile ("g" ++ ".info") ([] : List String))).1,
          merged := [],
          fs := (processItems ("g") (workItems ([] : List Nat))
            (insertFile ("g" ++ ".info") ([] : List String))).2,
          annotated := [] } :=
  ⟨by norm_num, by decide,
    c4_merge_no_files (Config.mk ("g") (["in.fa"]) 4 true true) 0 [] []
      (by norm_num) (by decide)⟩

/-- C3: the collision-rate gate.  For any engine-reported rate above the
fixed threshold `0.15`: without force the run exits with status 1 before
any partitioning (no subset computed, no file written, no merge, no
annotation); with force and a nonempty subset division, the run proceeds
and completes all remaining stages (workers, merge, annotation). -/
theorem c3_collision_gate (cfg : Config) (fpRate : ℚ) (divvy : List Nat) (fs0 : List String)
    (hrate : 3 / 20 < fpRate) :
    (cfg.force = false →
      run cfg fpRate divvy fs0
        = { err := some ExitErr.gateAbort, computed := [], merged := [],
            fs := fs0, annotated := [] }) ∧
    (cfg.force = true → divvy ≠ [] →
      (run cfg fpRate divvy fs0).err = none ∧
      (run cfg fpRate divvy fs0).merged ≠ [] ∧
      (run cfg fpRate divvy fs0).annotated = annotateWrites cfg.inputFilenames) := by
  constructor
  · intro hforce
    simp only [run]
    rw [if_pos ⟨hrate, hforce⟩]
  · intro hforce hdv
    have hgate : ¬(3 / 20 < fpRate ∧ cfg.force = false) := by
      intro ⟨_, hc⟩
      rw [hforce] at hc
      exact Bool.noConfusion hc
    have hlen0 : 0 < divvy.length := List.length_pos.mpr hdv
    have hit0 : ({ index := 0, start := (divvy ++ [0]).getD 0 0,
                   stop := (divvy ++ [0]).getD 1 0 } : Item) ∈ workItems divvy := by
      rw [workItems]
      exact List.mem_map_of_mem _ (List.mem_range.mpr hlen0)
    have hmem0 : outfile cfg.graphbase 0
        ∈ (processItems cfg.graphbase (workItems divvy)
            (insertFile (cfg.graphbase ++ ".info") fs0)).2 :=
      processItems_outfile_mem cfg.graphbase (workItems divvy) _ _ hit0
    have hglobne : globPmaps cfg.graphbase
        (processItems cfg.graphbase (workItems divvy)
          (insertFile (cfg.graphbase ++ ".info") fs0)).2 ≠ [] := by
      intro hnil
      have hin : outfile cfg.graphbase 0
          ∈ globPmaps cfg.graphbase
              (processItems cfg.graphbase (workItems divvy)
                (insertFile (cfg.graphbase ++ ".info") fs0)).2 :=
        List.mem_filter.mpr ⟨hmem0, matchesPmap_outfile _ _⟩
      rw [hnil] at hin
      simp at hin
    have hrun : run cfg fpRate divvy fs0
        = { err := none,
            computed := (processItems cfg.graphbase (workItems divvy)
              (insertFile (cfg.graphbase ++ ".info") fs0)).1,
            merged := globPmaps cfg.graphbase
              (processItems cfg.graphbase (workItems divvy)
                (insertFile (cfg.graphbase ++ ".info") fs0)).2,
            fs := (annotateWrites cfg.inputFilenames).foldl (fun fs w => insertFile w.1 fs)
              (if cfg.removeSubsets then
                (processItems cfg.graphbase (workItems divvy)
                  (insertFile (cfg.graphbase ++ ".info") fs0)).2.filter
                  (fun p => decide (p ∉ globPmaps cfg.graphbase
                    (processItems cfg.graphbase (workItems divvy)
                      (insertFile (cfg.graphbase ++ ".info") fs0)).2))
               else (processItems cfg.graphbase (workItems divvy)
                 (insertFile (cfg.graphbase ++ ".info") fs0)).2),
            annotated := annotateWrites cfg.inputFilenames } := by
      simp only [run]
      rw [if_neg hgate, mergeStage_ok cfg.graphbase _ hglobne cfg.removeSubsets]
    rw [hrun]
    exact ⟨rfl, hglobne, rfl⟩

/-- C3 witness: rate `0.20 > 0.15` without force aborts with exit 1 and
nothing done. -/
theorem c3_collision_gate_witness :
    ((3 : ℚ) / 20 < 1 / 5) ∧
    (((Config.mk ("g") (["in.fa"]) 4 true false).force = false →
      run (Config.mk ("g") (["in.fa"]) 4 true false) (1 / 5) [0, 2] []
        = { err := some ExitErr.gateAbort, computed := [], merged := [],
            fs := [], annotated := [] }) ∧
    ((Config.mk ("g") (["in.fa"]) 4 true false).force = true → [0, 2] ≠ ([] : List Nat) →
      (run (Config.mk ("g") (["in.fa"]) 4 true false) (1 / 5) [0, 2] []).err = none ∧
      (run (Config.mk ("g") (["in.fa"]) 4 true false) (1 / 5) [0, 2] []).merged ≠ [] ∧
      (run (Config.mk ("g") (["in.fa"]) 4 true false) (1 / 5) [0, 2] []).annotated
        = annotateWrites (Config.mk ("g") (["in.fa"]) 4 true false).inputFilenames)) :=
  ⟨by norm_num, c3_collision_gate (Config.mk ("g") (["in.fa"]) 4 true false) (1 / 5) [0, 2] []
    (by norm_num)⟩

/-- C7: in every interleaving of the worker pool and the main thread from
the post-spawn state, the trace splits into a worker era followed by a
merge era — no checkpoint-file merge ever happens before a worker event
has ceased, i.e. no worker event follows any merge event — and once any
merge event exists, the full join barrier `joinAll` (which requires every
worker to have terminated) is already in the trace. -/
theorem c7_join_before_merge (basename : String) (items : List Item) (k : Nat)
    (fs0 : List String) (s : SysState) (tr : List Event)
    (h : Reach basename (mkInit items k fs0) s tr) :
    (∃ t1 t2, tr = t1 ++ t2 ∧ (∀ e ∈ t1, e.isMergeEv = false) ∧
      (∀ e ∈ t2, e.isWorkerEv = false)) ∧
    ((∃ e ∈ tr, e.isMergeEv = true) → Event.joinAll ∈ tr) := by
  have inv := reach_inv basename items k fs0 s tr h
  constructor
  · obtain ⟨t1, t2, htr, h1, h2, _⟩ := inv.split
    exact ⟨t1, t2, htr, h1, h2⟩
  · intro ⟨e, he, hm⟩
    exact inv.mergingJoined (inv.mergeEvPhase e he hm)

/-- C7 witness: the theorem applied to the initial (empty) execution. -/
theorem c7_join_before_merge_witness :
    (∃ t1 t2, ([] : List Event) = t1 ++ t2 ∧ (∀ e ∈ t1, e.isMergeEv = false) ∧
      (∀ e ∈ t2, e.isWorkerEv = false)) ∧
    ((∃ e ∈ ([] : List Event), e.isMergeEv = true) → Event.joinAll ∈ ([] : List Event)) :=
  c7_join_before_merge ("g") [] 0 [] (mkInit [] 0 []) [] Reach.refl

theorem countP_eq_nodup_le_one {l : List Nat} (hnd : l.Nodup) (i : Nat) :
    l.countP (fun j => decide (j = i)) ≤ 1 := by
  induction l with
  | nil => simp
  | cons a l ih =>
    rw [List.countP_cons]
    rw [List.nodup_cons] at hnd
    by_cases hai : a = i
    · subst hai
      have hz : l.countP (fun j => decide (j = a)) = 0 := by
        apply List.countP_eq_zero.mpr
        intro j hj
        simp only [decide_eq_true_eq]
        intro hj2
        exact hnd.1 (hj2 ▸ hj)
      simp [hz]
    · have ht := ih hnd.2
      simp only [decide_eq_true_eq, hai, if_false]
      omega

/-- C8: with the queue filled once with the partitioner's work items
(whose subset indices are pairwise distinct), every interleaving delivers
each subset index to at most one worker (at most one pop per index, and
any two pop events with equal subset index coincide), and each checkpoint
path is written at most once. -/
theorem c8_at_most_once (basename : String) (divvy : List Nat) (k : Nat)
    (fs0 : List String) (s : SysState) (tr : List Event)
    (h : Reach basename (mkInit (workItems divvy) k fs0) s tr) :
    (∀ i, popIdxCount tr i ≤ 1) ∧
    (∀ w it v jt, Event.pop w it ∈ tr → Event.pop v jt ∈ tr →
      it.index = jt.index → w = v ∧ it = jt) ∧
    (∀ p, savePathCount tr p ≤ 1) := by
  have inv := reach_inv basename (workItems divvy) k fs0 s tr h
  have hinit : ∀ i, queueIdxCount (workItems divvy) i ≤ 1 := by
    intro i
    show ((workItems divvy).countP (fun it => decide (it.index = i))) ≤ 1
    have hcp : (workItems divvy).countP (fun it => decide (it.index = i))
        = ((workItems divvy).map Item.index).countP (fun j => decide (j = i)) := by
      rw [List.countP_map]
      rfl
    rw [hcp, workItems_map_index]
    exact countP_eq_nodup_le_one (List.nodup_range _) i
  have hpop : ∀ i, popIdxCount tr i ≤ 1 := by
    intro i
    have h1 := inv.popQueue i
    have h2 := hinit i
    have h3 : queueIdxCount (mkInit (workItems divvy) k fs0).queue i
        = queueIdxCount (workItems divvy) i := rfl
    omega
  refine ⟨hpop, ?_, ?_⟩
  · intro w it v jt hw hv hidx
    by_contra hne
    have hev : Event.pop w it ≠ Event.pop v jt := by
      intro heq
      injection heq with h1 h2
      exact hne ⟨h1, h2⟩
    have h2 : 2 ≤ tr.countP (isPopIdx jt.index) := by
      apply two_le_countP hw hv hev
      · show isPopIdx jt.index (Event.pop w it) = true
        simp [isPopIdx, hidx]
      · show isPopIdx jt.index (Event.pop v jt) = true
        simp [isPopIdx]
    have h3 := hpop jt.index
    have h4 : popIdxCount tr jt.index = tr.countP (isPopIdx jt.index) := rfl
    omega
  · intro p
    by_cases hex : ∃ w it, Event.save w it p ∈ tr
    · obtain ⟨w, it, hw⟩ := hex
      have hmono : savePathCount tr p ≤ saveIdxCount tr it.index := by
        apply List.countP_mono_left
        intro e he hpe
        cases e with
        | save v jt q =>
          have hq : q = p := by
            have : decide (q = p) = true := hpe
            simpa using this
          have hq1 : q = outfile basename jt.index := inv.savePath v jt q he
          have hp1 : p = outfile basename it.index := inv.savePath w it p hw
          have hidx : jt.index = it.index := by
            apply outfile_inj basename
            rw [← hq1, hq, hp1]
          show decide (jt.index = it.index) = true
          simp [hidx]
        | pop v jt => exact absurd hpe (by simp [isSavePath])
        | skip v jt => exact absurd hpe (by simp [isSavePath])
        | compute v jt => exact absurd hpe (by simp [isSavePath])
        | exitW v => exact absurd hpe (by simp [isSavePath])
        | assertCheck o => exact absurd hpe (by simp [isSavePath])
        | joinAll => exact absurd hpe (by simp [isSavePath])
        | mergeFile q => exact absurd hpe (by simp [isSavePath])
      have hfin : saveIdxCount tr it.index ≤ finishIdxCount tr it.index := by
        apply List.countP_mono_left
        intro e he hse
        cases e with
        | save v jt q =>
          have : decide (jt.index = it.index) = true := hse
          show isFinishIdx it.index (Event.save v jt q) = true
          simpa [isFinishIdx] using this
        | pop v jt => exact absurd hse (by simp [isSaveIdx])
        | skip v jt => exact absurd hse (by simp [isSaveIdx])
        | compute v jt => exact absurd hse (by simp [isSaveIdx])
        | exitW v => exact absurd hse (by simp [isSaveIdx])
        | assertCheck o => exact absurd hse (by simp [isSaveIdx])
        | joinAll => exact absurd hse (by simp [isSaveIdx])
        | mergeFile q => exact absurd hse (by simp [isSaveIdx])
      have hph := inv.popHold it.index
      have hpp := hpop it.index
      omega
    · have hzero : savePathCount tr p = 0 := by
        apply List.countP_eq_zero.mpr
        intro e he hpe
        cases e with
        | save v jt q =>
          have hq : q = p := by
            have : decide (q = p) = true := hpe
            simpa using this
          exact hex ⟨v, jt, hq ▸ he⟩
        | pop v jt => exact absurd hpe (by simp [isSavePath])
        | skip v jt => exact absurd hpe (by simp [isSavePath])
        | compute v jt => exact absurd hpe (by simp [isSavePath])
        | exitW v => exact absurd hpe (by simp [isSavePath])
        | assertCheck o => exact absurd hpe (by simp [isSavePath])
        | joinAll => exact absurd hpe (by simp [isSavePath])
        | mergeFile q => exact absurd hpe (by simp [isSavePath])
      omega

/-- C8 witness: the theorem applied to the initial (empty) execution. -/
theorem c8_at_most_once_witness :
    (∀ i, popIdxCount [] i ≤ 1) ∧
    (∀ w it v jt, Event.pop w it ∈ ([] : List Event) → Event.pop v jt ∈ ([] : List Event) →
      it.index = jt.index → w = v ∧ it = jt) ∧
    (∀ p, savePathCount [] p ≤ 1) :=
  c8_at_most_once ("g") [0, 2] 1 [] (mkInit (workItems [0, 2]) 1 []) [] Reach.refl

/-- C9: the `assert threading.active_count() == args.threads + 1` check
after spawning never fails in a run where no spawned worker has yet
terminated: any assert event preceded by no worker-exit event recorded a
passing check. -/
theorem c9_assert_holds (basename : String) (items : List Item) (k : Nat)
    (fs0 : List String) (s : SysState) (t1 t2 : List Event) (ok : Bool)
    (h : Reach basename (mkInit items k fs0) s (t1 ++ Event.assertCheck ok :: t2))
    (hno : ∀ w : Nat, Event.exitW w ∉ t1) :
    ok = true :=
  (reach_inv basename items k fs0 s _ h).assertSafe t1 ok t2 rfl hno

/-- C9 witness: the assert step taken immediately after spawning records a
passing check. -/
theorem c9_assert_holds_witness : assertOk (mkInit [] 0 []) = true :=
  c9_assert_holds ("g") [] 0 []
    { mkInit [] 0 [] with mainPh := MPhase.joining }
    [] [] (assertOk (mkInit [] 0 []))
    (Reach.step (mkInit [] 0 []) [] _ _ Reach.refl
      (Step.assertStep (mkInit [] 0 []) rfl))
    (by intro w hw; exact absurd hw (List.not_mem_nil _))

end DoPartition
